import Mathlib

set_option maxRecDepth 100000

/-!
Verification of the DannyPack codec (`src/dannypack.rs`) of the binostr
repository, against its natural-language specification.

Modelling conventions:
* A Rust byte buffer (`&[u8]` / `Vec<u8>`) is a `List Nat` whose elements are
  intended to lie below 256; every byte the serializer emits is below 256, and
  theorems about the deserializer either quantify over byte lists together
  with that bound or evaluate it on concrete byte lists.
* Rust strings (`String`) are modelled by their UTF-8 byte sequences
  (`List Nat`); string equality in Rust is byte equality.
* `u8`/`u16`/`u32`/`u64` arithmetic is modelled over `Nat` with explicit
  `% 2^w` at the points where the source truncates (casts and `to_le_bytes`);
  `i64` is modelled by `Int` plus two's-complement conversion at the wire.
* Fallible operations return `Except DannyPackError`.
-/

deriving instance DecidableEq for Except

/-- Error type of `src/dannypack.rs` (`enum DannyPackError`, lines 568-584).
The `Utf8` and `Hex` payloads are irrelevant to control flow and are dropped. -/
inductive DannyPackError where
  | TooShort
  | InvalidTagData
  | InvalidVarint
  | Utf8
  | Hex
deriving DecidableEq, Repr

/-- The in-memory record, `NostrEvent` of `src/event.rs` (lines 13-34).
`id`, `pubkey`, `sig` are raw byte arrays of lengths 32/32/64, `created_at`
is an `i64`, `kind` a `u32` (0 ≤ kind < 2^32), `tags` a list of lists of
strings, `content` a string. -/
structure NostrEvent where
  id : List Nat
  pubkey : List Nat
  created_at : Int
  kind : Nat
  tags : List (List (List Nat))
  content : List Nat
  sig : List Nat
deriving DecidableEq, Repr

/-- `FIXED_SIZE` constant (line 20). -/
def FIXED_SIZE : Nat := 138

/-- `HEX_LUT_LOWER` (lines 23-43): the 256-entry table maps the bytes
`'0'..'9'` (48-57) to 0-9 and `'a'..'f'` (97-102) to 10-15; every other
entry keeps the initial fill value `0xFF`.  Uppercase `A-F` is deliberately
not mapped. -/
def HEX_LUT_LOWER (b : Nat) : Nat :=
  if 48 ≤ b ∧ b ≤ 57 then b - 48
  else if 97 ≤ b ∧ b ≤ 102 then b - 87
  else 255

/-- One nibble of `HEX_PAIR_LUT` (lines 45-63): `b"0123456789abcdef"[n]`. -/
def hexChar (n : Nat) : Nat :=
  if n < 10 then 48 + n else 87 + n

/-- `hex_encode_fast` (lines 65-76): each source byte `b` (a `u8`) becomes
the two bytes `chars[b >> 4], chars[b & 0xF]` (the `u16` pair is stored
little-endian as `[hi, lo]` in memory). -/
def hex_encode_fast (src : List Nat) : List Nat :=
  src.flatMap fun b => [hexChar (b % 256 / 16), hexChar (b % 16)]

/-- Loop body of `write_varint_ptr`, with an explicit iteration budget so the
recursion is structural: the source's loop runs until the value is exhausted,
which for its `u64` argument is at most 10 iterations (⌈64/7⌉). -/
def write_varint_go : Nat → Nat → List Nat
  | _, 0 => []
  | value, fuel + 1 =>
    if value < 128 then [value]
    else (value % 128 + 128) :: write_varint_go (value / 128) fuel

/-- `write_varint_ptr` (lines 78-91): 7 bits per byte, low bits first, high
bit of each byte marks continuation.  The argument is a `u64` in the source;
10 output bytes always suffice for values below 2^64, and every length the
codec writes is far below that. -/
def write_varint_ptr (value : Nat) : List Nat :=
  write_varint_go value 10

/-- `read_varint_ptr` (lines 93-111).  Arguments: the bytes at the cursor, the
`max_len` bound, the running `shift` and accumulator `result`.  Returns
`(value, bytes_consumed)`; the source returns `(0, 0)` when the bound is hit
before a terminating byte.  `result |= (byte & 0x7F) << shift` is the sum
below because the 7-bit chunks occupy disjoint bit ranges.  (The source
accumulates in a `u64`; all values exercised by the theorems in this file are
far below 2^64.)  The `([], _)` case is unreachable when `max_len` is at most
the number of bytes remaining, which every call in the source maintains. -/
def read_varint_ptr : List Nat → Nat → Nat → Nat → Nat × Nat
  | _, 0, _, _ => (0, 0)
  | [], _ + 1, _, _ => (0, 0)
  | b :: rest, max_len + 1, shift, acc =>
    if b < 128 then (acc + b % 128 * 2 ^ shift, 1)
    else
      match read_varint_ptr rest max_len (shift + 7) (acc + b % 128 * 2 ^ shift) with
      | (_, 0) => (0, 0)
      | (v, c) => (v, c + 1)

/-- `write_len_flag_ptr` (lines 113-123): bit 7 of the first byte is the hex
flag; lengths below `0x7F` are stored in bits 0-6, otherwise the marker `0x7F`
is followed by a varint of the length. -/
def write_len_flag_ptr (len : Nat) (is_hex : Bool) : List Nat :=
  let flag := if is_hex then 128 else 0
  if len < 127 then [flag + len]
  else (flag + 127) :: write_varint_ptr len

/-- `read_len_flag_ptr` (lines 125-136).  The source dereferences `*src`
without checking `max_len` (modelled by `getD _ 0`; all theorems below stay
inside the region where at least one byte remains), tests bit 7 for the hex
flag and masks bits 0-6 (`header & 0x7F` = `% 128` on a `u8`).  In the varint
branch the source computes `max_len - 1` on `usize`; the theorems below only
exercise it with `max_len ≥ 1`. -/
def read_len_flag_ptr (src : List Nat) (max_len : Nat) : Nat × Bool × Nat :=
  let header := src.getD 0 0
  let is_hex : Bool := decide (128 ≤ header)
  let len_or_marker := header % 128
  if len_or_marker < 127 then (len_or_marker, is_hex, 1)
  else
    let r := read_varint_ptr (src.drop 1) (max_len - 1) 0 0
    (r.1, is_hex, 1 + r.2)

/-- `might_be_hex` (lines 138-162): length must be at least 8 and even, and
the bitwise OR of the `HEX_LUT_LOWER` entries of the first eight bytes must
differ from `0xFF` (which happens exactly when all eight are hex digits,
since digit entries are ≤ 15 and non-digit entries are `0xFF`). -/
def might_be_hex (s : List Nat) : Bool :=
  if s.length < 8 || s.length % 2 != 0 then false
  else
    let m := HEX_LUT_LOWER (s.getD 0 0) ||| HEX_LUT_LOWER (s.getD 1 0) |||
      HEX_LUT_LOWER (s.getD 2 0) ||| HEX_LUT_LOWER (s.getD 3 0) |||
      HEX_LUT_LOWER (s.getD 4 0) ||| HEX_LUT_LOWER (s.getD 5 0) |||
      HEX_LUT_LOWER (s.getD 6 0) ||| HEX_LUT_LOWER (s.getD 7 0)
    m != 255

/-- `hex_decode_checked` (lines 167-205): decodes two characters per output
byte; aborts returning failure when a looked-up nibble has its high bits set
(`(hi | lo) & 0xF0 != 0`, i.e. a table entry is `0xFF`, i.e. ≥ 16 below —
entries are either ≤ 15 or 255).  The source's 8-at-a-time main loop checks
and writes four pairs per step and falls back to a 2-at-a-time loop; both
abort the whole call on the first invalid pair, so the pairwise recursion
below computes the same result.  A trailing odd byte is ignored (the source
stops when fewer than two bytes remain); its callers only pass even lengths.
The source signals failure by returning length 0 and success by the positive
decoded length together with the bytes written through `dst`; `Option`
models this (callers test `decoded_len > 0`, and every successful call from
`might_be_hex`-guarded sites has length ≥ 8, hence a positive result). -/
def hex_decode_checked : List Nat → Option (List Nat)
  | a :: b :: rest =>
    let hi := HEX_LUT_LOWER a
    let lo := HEX_LUT_LOWER b
    if 16 ≤ hi ∨ 16 ≤ lo then none
    else
      match hex_decode_checked rest with
      | none => none
      | some t => some ((hi * 16 + lo) :: t)
  | _ => some []

/-- The byte block one tag value (or the content) contributes, serializer
side: the shared shape of `serialize` lines 252-278 and `pack_tags_fast`
lines 311-337.  If `might_be_hex` accepts and the full decode succeeds, a
header with the hex flag and the decoded bytes are emitted; the source
reserves 5 bytes for the header and copies the decoded bytes down when the
header is shorter (`header_len < 5`), while a 5-byte header already sits
flush, so in both cases the block is `header ++ decoded`.  (When the header
would exceed 5 bytes — decoded length ≥ 2^28 — the source leaves
`header_len - 5` bytes of the block uninitialized; the zero filler below
stands for those unspecified bytes, and every theorem stays below that
size.)  Otherwise the value is stored literally: header with clear flag,
then the raw bytes. -/
def pack_value (s : List Nat) : List Nat :=
  if might_be_hex s then
    match hex_decode_checked s with
    | some d =>
      let hdr := write_len_flag_ptr d.length true
      if hdr.length ≤ 5 then hdr ++ d
      else hdr ++ d.drop (hdr.length - 5) ++ List.replicate (hdr.length - 5) 0
    | none => write_len_flag_ptr s.length false ++ s
  else write_len_flag_ptr s.length false ++ s

/-- `pack_tags_fast` (lines 303-342): varint tag count, then per tag one byte
`tag.len() as u8` (hence `% 256`) followed by the packed values. -/
def pack_tags_fast (tags : List (List (List Nat))) : List Nat :=
  write_varint_ptr tags.length ++
    tags.flatMap fun tag => tag.length % 256 :: tag.flatMap pack_value

/-- Little-endian bytes of the low `w` bytes of `n` (`to_le_bytes` after the
appropriate truncation). -/
def natToLe : Nat → Nat → List Nat
  | 0, _ => []
  | w + 1, n => n % 256 :: natToLe w (n / 256)

/-- Reassemble a little-endian byte sequence (`from_le_bytes`). -/
def leToNat : List Nat → Nat
  | [] => 0
  | b :: bs => b + 256 * leToNat bs

/-- `i64::to_le_bytes`: two's-complement, little-endian. -/
def i64ToLe (v : Int) : List Nat := natToLe 8 (v % (2 ^ 64 : Nat)).toNat

/-- `i64::from_le_bytes` of 8 bytes. -/
def i64FromLe (bs : List Nat) : Int :=
  let n := leToNat bs
  if n < 2 ^ 63 then (n : Int) else (n : Int) - 2 ^ 64

/-- The 138-byte fixed block written by `serialize` (lines 229-237):
id (32) ++ pubkey (32) ++ sig (64) ++ created_at (8, LE signed) ++
kind (2, LE).  The source stores `event.kind` through a 2-byte unaligned
write, keeping the low 16 bits (`src/event.rs` declares `kind: u32`; the
wire width is fixed at 2 bytes, spec §3/§9). -/
def fixedBlock (e : NostrEvent) : List Nat :=
  e.id ++ e.pubkey ++ e.sig ++ i64ToLe e.created_at ++ natToLe 2 e.kind

/-- The tag section written by `serialize` (lines 239-250): 5 bytes are
reserved, the tag data is packed after them, the varint of the tag-data
length is written into the reserved space, and when it is shorter than 5
bytes the tag data is copied down to sit flush after it.  A 5-byte varint
already sits flush; a longer varint (tag data ≥ 2^35 bytes) overwrites the
first bytes of the tag data in place, which the `drop` branch reproduces. -/
def tagSection (tags : List (List (List Nat))) : List Nat :=
  let td := pack_tags_fast tags
  let v := write_varint_ptr td.length
  if v.length < 5 then v ++ td else v ++ td.drop (v.length - 5)

/-- The bytes `serialize` (lines 217-283) appends for one event: fixed block,
tag section, then the content block, which has exactly the shape of a packed
tag value (lines 252-278). -/
def serializeBytes (e : NostrEvent) : List Nat :=
  fixedBlock e ++ tagSection e.tags ++ pack_value e.content

/-- `serialize` (lines 217-283): writes through raw pointers starting at
`buf.as_mut_ptr().add(buf.len())`, i.e. strictly after the existing
contents, then grows the length by the bytes written; the buffer therefore
becomes its old contents followed by `serializeBytes`. -/
def serialize (e : NostrEvent) (buf : List Nat) : List Nat :=
  buf ++ serializeBytes e

/-- The inner value loop of `unpack_tags_into` (lines 474-504), reading
`value_count` values starting at index `j` of the reused `values` vector
(each string is cleared and fully overwritten, so only the vector's shape is
reused).  Arguments after the region and its `max_len`: values left to read,
the current vector, the cursor `pos`, and `j`.  `max_len - pos` is a `usize`
subtraction in the source; every call below keeps `pos ≤ max_len`. -/
def unpack_values_loop (region : List Nat) (max_len : Nat) :
    Nat → List (List Nat) → Nat → Nat →
    Except DannyPackError (List (List Nat) × Nat)
  | 0, values, pos, _ => .ok (values, pos)
  | k + 1, values, pos, j =>
    let r := read_len_flag_ptr (region.drop pos) (max_len - pos)
    let len := r.1
    let is_hex := r.2.1
    let pos := pos + r.2.2
    if pos + len > max_len then .error .InvalidTagData
    else
      let bytes := (region.drop pos).take len
      let s := if is_hex then hex_encode_fast bytes else bytes
      unpack_values_loop region max_len k (values.set j s) (pos + len) (j + 1)

/-- The outer tag loop of `unpack_tags_into` (lines 455-506): for each tag
index `i`, check the cursor, read the one-byte `value_count`, push a fresh
inner vector when `i` is past the current length (otherwise reuse the one in
place), pad the inner vector with empty strings up to `value_count`
(`values.resize`), run the value loop, and truncate the inner vector to
`value_count`.  The `tags.reserve` call in the source only affects capacity
and has no observable effect. -/
def unpack_tags_loop (region : List Nat) (max_len : Nat) :
    Nat → List (List (List Nat)) → Nat → Nat →
    Except DannyPackError (List (List (List Nat)) × Nat)
  | 0, tags, pos, _ => .ok (tags, pos)
  | k + 1, tags, pos, i =>
    if pos ≥ max_len then .error .InvalidTagData
    else
      let value_count := region.getD pos 0
      let pos := pos + 1
      let tags := if tags.length ≤ i then tags ++ [[]] else tags
      let values := tags.getD i []
      let values := if values.length < value_count
        then values ++ List.replicate (value_count - values.length) []
        else values
      match unpack_values_loop region max_len value_count values pos 0 with
      | .error e => .error e
      | .ok (values, pos) =>
        unpack_tags_loop region max_len k (tags.set i (values.take value_count)) pos (i + 1)

/-- `unpack_tags_into` (lines 429-510): empty region clears the tags; else
read the varint tag count (`(0, 0)` ⇒ `InvalidTagData`), run the tag loop
over the caller's previous tags (scratch reuse), and truncate to the count. -/
def unpack_tags_into (region : List Nat) (prior : List (List (List Nat))) :
    Except DannyPackError (List (List (List Nat))) :=
  let max_len := region.length
  if max_len = 0 then .ok []
  else
    let r := read_varint_ptr region max_len 0 0
    if r.2 = 0 then .error .InvalidTagData
    else
      match unpack_tags_loop region max_len r.1 prior r.2 0 with
      | .error e => .error e
      | .ok (tags, _) => .ok (tags.take r.1)

/-- `deserialize_into` (lines 358-427).  The caller-supplied output record is
returned rather than mutated; on the source's error paths the partially
overwritten output is never read again, and on success every field is fully
overwritten: `id`/`pubkey`/`sig`/`created_at`/`kind` by plain copies, the
content string by clear-then-copy (or clear-then-hex-encode), and the tags by
the scratch-reusing `unpack_tags_into`, which is the only place the prior
contents enter at all.  `len - pos` subtractions are on `usize`; every branch
below keeps `pos ≤ len` while at least one byte remains, matching the
source's reachable states. -/
def deserialize_into (data : List Nat) (event : NostrEvent) :
    Except DannyPackError NostrEvent :=
  let len := data.length
  if len < FIXED_SIZE + 2 then .error .TooShort
  else
    let id := data.take 32
    let pubkey := (data.drop 32).take 32
    let sig := (data.drop 64).take 64
    let created_at := i64FromLe ((data.drop 128).take 8)
    let kind := leToNat ((data.drop 136).take 2)
    let r := read_varint_ptr (data.drop FIXED_SIZE) (len - FIXED_SIZE) 0 0
    if r.2 = 0 then .error .TooShort
    else
      let tag_len := r.1
      let pos := FIXED_SIZE + r.2
      if tag_len > len - pos then .error .TooShort
      else
        match unpack_tags_into ((data.drop pos).take tag_len) event.tags with
        | .error e => .error e
        | .ok tags =>
          let pos := pos + tag_len
          let rc := read_len_flag_ptr (data.drop pos) (len - pos)
          let content_len := rc.1
          let content_is_hex := rc.2.1
          let pos := pos + rc.2.2
          if content_len > len - pos then .error .TooShort
          else
            let cbytes := (data.drop pos).take content_len
            let content := if content_is_hex then hex_encode_fast cbytes else cbytes
            .ok { id := id, pubkey := pubkey, created_at := created_at,
                  kind := kind, tags := tags, content := content, sig := sig }

/-- The all-zero record `deserialize` (lines 344-356) starts from. -/
def zeroEvent : NostrEvent :=
  { id := List.replicate 32 0, pubkey := List.replicate 32 0, created_at := 0,
    kind := 0, tags := [], content := [], sig := List.replicate 64 0 }

/-- `deserialize` (lines 344-356): build a zeroed record and delegate to
`deserialize_into`. -/
def deserialize (data : List Nat) : Except DannyPackError NostrEvent :=
  deserialize_into data zeroEvent

/-- `buf[pos..pos + bytes.len()].copy_from_slice(bytes)`. -/
def writeSlice (buf : List Nat) (pos : Nat) (bytes : List Nat) : List Nat :=
  buf.take pos ++ bytes ++ buf.drop (pos + bytes.length)

/-- `serialize_batch` (lines 512-529): the count as a `u32` (4 LE bytes),
then per event 4 placeholder bytes, a `serialize` call appending into the
same buffer, and the event's byte length written back over the placeholder
(`event_len as u32`). -/
def serialize_batch (events : List NostrEvent) : List Nat :=
  events.foldl
    (fun buf e =>
      let len_pos := buf.length
      let buf := buf ++ [0, 0, 0, 0]
      let buf := serialize e buf
      let event_len := buf.length - len_pos - 4
      writeSlice buf len_pos (natToLe 4 event_len))
    (natToLe 4 events.length)

/-- The per-record loop of `deserialize_batch` (lines 546-562), expressed on
the bytes remaining after the cursor; the source accumulates the records into
a vector in the same order as this cons recursion. -/
def deserialize_batch_loop : Nat → List Nat → Except DannyPackError (List NostrEvent)
  | 0, _ => .ok []
  | k + 1, rest =>
    if rest.length < 4 then .error .TooShort
    else
      let event_len := leToNat (rest.take 4)
      let rest := rest.drop 4
      if event_len > rest.length then .error .TooShort
      else
        match deserialize (rest.take event_len) with
        | .error e => .error e
        | .ok ev =>
          match deserialize_batch_loop k (rest.drop event_len) with
          | .error e => .error e
          | .ok evs => .ok (ev :: evs)

/-- `deserialize_batch` (lines 531-566). -/
def deserialize_batch (data : List Nat) : Except DannyPackError (List NostrEvent) :=
  if data.length < 4 then .error .TooShort
  else deserialize_batch_loop (leToNat (data.take 4)) (data.drop 4)

/-- Modelled from the spec: §4.5 and §7 require the decoder to validate that
every non-hex byte run is well-formed UTF-8 (`InvalidUtf8`); the source
contains no UTF-8 validation anywhere on the decode path, so the validator
itself is not in the code and is modelled here as the standard UTF-8
acceptance rules (RFC 3629: continuation bytes `0x80-0xBF`, no overlong
forms, no surrogates, range up to `U+10FFFF`). -/
def isValidUtf8 : List Nat → Bool
  | [] => true
  | b :: rest =>
    if b < 0x80 then isValidUtf8 rest
    else if 0xC2 ≤ b ∧ b ≤ 0xDF then
      match rest with
      | c :: r => decide (0x80 ≤ c ∧ c ≤ 0xBF) && isValidUtf8 r
      | [] => false
    else if b = 0xE0 then
      match rest with
      | c :: d :: r =>
        decide (0xA0 ≤ c ∧ c ≤ 0xBF) && decide (0x80 ≤ d ∧ d ≤ 0xBF) && isValidUtf8 r
      | _ => false
    else if (0xE1 ≤ b ∧ b ≤ 0xEC) ∨ b = 0xEE ∨ b = 0xEF then
      match rest with
      | c :: d :: r =>
        decide (0x80 ≤ c ∧ c ≤ 0xBF) && decide (0x80 ≤ d ∧ d ≤ 0xBF) && isValidUtf8 r
      | _ => false
    else if b = 0xED then
      match rest with
      | c :: d :: r =>
        decide (0x80 ≤ c ∧ c ≤ 0x9F) && decide (0x80 ≤ d ∧ d ≤ 0xBF) && isValidUtf8 r
      | _ => false
    else if b = 0xF0 then
      match rest with
      | c :: d :: e :: r =>
        decide (0x90 ≤ c ∧ c ≤ 0xBF) && decide (0x80 ≤ d ∧ d ≤ 0xBF) &&
          decide (0x80 ≤ e ∧ e ≤ 0xBF) && isValidUtf8 r
      | _ => false
    else if 0xF1 ≤ b ∧ b ≤ 0xF3 then
      match rest with
      | c :: d :: e :: r =>
        decide (0x80 ≤ c ∧ c ≤ 0xBF) && decide (0x80 ≤ d ∧ d ≤ 0xBF) &&
          decide (0x80 ≤ e ∧ e ≤ 0xBF) && isValidUtf8 r
      | _ => false
    else if b = 0xF4 then
      match rest with
      | c :: d :: e :: r =>
        decide (0x80 ≤ c ∧ c ≤ 0x8F) && decide (0x80 ≤ d ∧ d ≤ 0xBF) &&
          decide (0x80 ≤ e ∧ e ≤ 0xBF) && isValidUtf8 r
      | _ => false
    else false

/-- Overwrite `xs` into `cur` starting at index `j`: the sequence of
`values.set` writes the value loop of `unpack_tags_into` performs on the
reused vector (each `s = values[j]` is cleared and rebuilt, lines 483-501). -/
def setSeq : List α → Nat → List α → List α
  | cur, _, [] => cur
  | cur, j, x :: xs => setSeq (cur.set j x) (j + 1) xs

/-- The sequence of push-or-overwrite steps the tag loop of
`unpack_tags_into` performs on the reused outer vector (lines 463-466 and
505): at index `i`, push a fresh entry when past the end, then overwrite. -/
def placeTags : List (List (List Nat)) → Nat → List (List (List Nat)) → List (List (List Nat))
  | cur, _, [] => cur
  | cur, i, t :: ts =>
    placeTags ((if cur.length ≤ i then cur ++ [[]] else cur).set i t) (i + 1) ts

/-- The value sequence the value loop of `unpack_tags_into` decodes,
independent of the scratch vector it is written into: `k` values starting at
cursor `pos`.  Mirrors `unpack_values_loop` with the writes stripped out. -/
def pureVals (region : List Nat) (max_len : Nat) :
    Nat → Nat → Except DannyPackError (List (List Nat) × Nat)
  | 0, pos => .ok ([], pos)
  | k + 1, pos =>
    let r := read_len_flag_ptr (region.drop pos) (max_len - pos)
    let len := r.1
    let is_hex := r.2.1
    let pos := pos + r.2.2
    if pos + len > max_len then .error .InvalidTagData
    else
      let bytes := (region.drop pos).take len
      let s := if is_hex then hex_encode_fast bytes else bytes
      match pureVals region max_len k (pos + len) with
      | .error e => .error e
      | .ok (vs, p) => .ok (s :: vs, p)

/-- The tag sequence the tag loop of `unpack_tags_into` decodes, independent
of the scratch vectors: `k` tags starting at cursor `pos`.  Mirrors
`unpack_tags_loop` with the vector reuse stripped out (the decoded values of
a tag are exactly the `value_count` entries the loop writes and truncates
to). -/
def pureTags (region : List Nat) (max_len : Nat) :
    Nat → Nat → Except DannyPackError (List (List (List Nat)) × Nat)
  | 0, pos => .ok ([], pos)
  | k + 1, pos =>
    if pos ≥ max_len then .error .InvalidTagData
    else
      let value_count := region.getD pos 0
      match pureVals region max_len value_count (pos + 1) with
      | .error e => .error e
      | .ok (vs, p) =>
        match pureTags region max_len k p with
        | .error e => .error e
        | .ok (ts, p') => .ok (vs :: ts, p')

/-- A byte is a lowercase hex digit (`[0-9a-f]`), the character class the
hex heuristic of §4.3 accepts (`HEX_LUT_LOWER` entry ≤ 15). -/
def isLowerHexDigit (b : Nat) : Bool :=
  decide ((48 ≤ b ∧ b ≤ 57) ∨ (97 ≤ b ∧ b ≤ 102))

/-- A well-formed string for the codec: a byte sequence (each below 256) of
length below 2^28 (so its length/flag header fits the 5 reserved bytes;
see `pack_value`). -/
def WfStr (s : List Nat) : Prop :=
  (∀ b ∈ s, b < 256) ∧ s.length < 2 ^ 28

/-- A representable record (§3 of the spec, claim C1): field widths 32/32/64,
`created_at` in `i64` range, every tag with at most 255 values (the one-byte
`value_count` ceiling), well-formed strings, and a tag section small enough
(< 2^35 bytes, i.e. < 32 GiB) that its length varint fits the 5 reserved
bytes.  The `kind` range is stated separately at each claim. -/
def Representable (e : NostrEvent) : Prop :=
  e.id.length = 32 ∧ e.pubkey.length = 32 ∧ e.sig.length = 64 ∧
  (∀ b ∈ e.id, b < 256) ∧ (∀ b ∈ e.pubkey, b < 256) ∧ (∀ b ∈ e.sig, b < 256) ∧
  -(2 ^ 63) ≤ e.created_at ∧ e.created_at < 2 ^ 63 ∧
  (∀ t ∈ e.tags, t.length ≤ 255 ∧ ∀ v ∈ t, WfStr v) ∧
  WfStr e.content ∧
  (pack_tags_fast e.tags).length < 2 ^ 35

instance : DecidablePred WfStr := fun _ =>
  inferInstanceAs (Decidable (_ ∧ _))

instance : DecidablePred Representable := fun _ =>
  inferInstanceAs (Decidable (_ ∧ _))

/-- A representable sample record: multi-byte UTF-8 content
(\u201c\u3053\u3093 \U0001f980\u201d), a lowercase-hex tag value, a negative timestamp. -/
def sampleUtf8Event : NostrEvent :=
  { id := List.replicate 32 171, pubkey := List.replicate 32 205,
    created_at := -86400, kind := 1,
    tags := [[[112], [100, 101, 97, 100, 98, 101, 101, 102]]],
    content := [227, 129, 147, 227, 130, 147, 32, 240, 159, 166, 128],
    sig := List.replicate 64 239 }

/-- A representable sample record with empty content and one tag with zero
values. -/
def sampleEmptyEvent : NostrEvent :=
  { id := List.replicate 32 0, pubkey := List.replicate 32 1, created_at := 0,
    kind := 0, tags := [[]], content := [], sig := List.replicate 64 2 }

/-- The record whose encoding exhibits the failing strict prefix of claim C2:
empty tag list and 127 bytes of content, so the content header takes the
varint form `0x7F 0x7F` and the whole encoding is 269 bytes. -/
def c2Record : NostrEvent :=
  { id := List.replicate 32 0, pubkey := List.replicate 32 0, created_at := 0,
    kind := 0, tags := [], content := List.replicate 127 97,
    sig := List.replicate 64 0 }

/-- The failing input of claim C3: a 142-byte buffer of 138 zero fixed bytes,
tag section `[1, 0]` (varint tag-section length 1, varint tag count 0), then
the content header `1` (length 1, hex flag clear) and the byte `0xFF`, which
is not valid UTF-8. -/
def c3Input : List Nat := List.replicate 138 0 ++ [1, 0] ++ [1, 255]

/-- The record of claim C5 carrying the uppercase tag value `"DEADBEEF"`. -/
def upperHexEvent : NostrEvent :=
  { id := List.replicate 32 0, pubkey := List.replicate 32 0, created_at := 0,
    kind := 0, tags := [[[68, 69, 65, 68, 66, 69, 69, 70]]], content := [],
    sig := List.replicate 64 0 }

/-- The record of claim C5 carrying the lowercase tag value `"deadbeef"`. -/
def lowerHexEvent : NostrEvent :=
  { upperHexEvent with tags := [[[100, 101, 97, 100, 98, 101, 101, 102]]] }

/-! ### Basic facts about the primitives -/

/-- Reading one byte at an offset, through the view of the dropped suffix. -/
theorem getD_of_drop_cons {α : Type} {l : List α} {pos : Nat} {b : α} {tl : List α}
    (d : α) (h : l.drop pos = b :: tl) : l.getD pos d = b := by
  induction pos generalizing l with
  | zero => cases l <;> simp_all [List.getD]
  | succ n ih =>
    cases l with
    | nil => simp at h
    | cons x xs =>
      simp only [List.drop_succ_cons] at h
      simpa [List.getD] using ih h

theorem length_natToLe (w n : Nat) : (natToLe w n).length = w := by
  induction w generalizing n with
  | zero => rfl
  | succ w ih => simp [natToLe, ih]

theorem natToLe_lt_256 (w n : Nat) : ∀ b ∈ natToLe w n, b < 256 := by
  induction w generalizing n with
  | zero => simp [natToLe]
  | succ w ih =>
    intro b hb
    simp only [natToLe, List.mem_cons] at hb
    rcases hb with h | h
    · omega
    · exact ih _ _ h

theorem leToNat_natToLe (w n : Nat) : leToNat (natToLe w n) = n % 256 ^ w := by
  induction w generalizing n with
  | zero => simp [natToLe, leToNat, Nat.mod_one]
  | succ w ih =>
    simp only [natToLe, leToNat, ih]
    rw [pow_succ']
    rw [Nat.mod_mul]

theorem i64_roundtrip (v : Int) (h1 : -(2 ^ 63) ≤ v) (h2 : v < 2 ^ 63) :
    i64FromLe (i64ToLe v) = v := by
  unfold i64ToLe i64FromLe
  rw [leToNat_natToLe]
  have h256 : (256 : Nat) ^ 8 = 2 ^ 64 := by norm_num
  rw [h256]
  simp only []
  split <;> push_cast <;> omega

theorem write_varint_go_length_pos (n fuel : Nat) (h : 1 ≤ fuel) :
    1 ≤ (write_varint_go n fuel).length := by
  cases fuel with
  | zero => omega
  | succ fuel => simp only [write_varint_go]; split <;> simp

theorem write_varint_go_length_le (fuel : Nat) :
    ∀ n k, 1 ≤ k → k ≤ fuel → n < 128 ^ k →
      (write_varint_go n fuel).length ≤ k := by
  induction fuel with
  | zero => intro n k h1 h2 _; omega
  | succ fuel ih =>
    intro n k h1 h2 hn
    simp only [write_varint_go]
    split
    · simpa using h1
    · rename_i hge
      have hk2 : 2 ≤ k := by
        by_contra hk
        have : k = 1 := by omega
        subst this
        simp at hn
        omega
      have hdiv : n / 128 < 128 ^ (k - 1) := by
        apply Nat.div_lt_of_lt_mul
        have : (128 : Nat) ^ (k - 1) * 128 = 128 ^ k := by
          rw [← pow_succ]
          congr 1
          omega
        omega
      have := ih (n / 128) (k - 1) (by omega) (by omega) hdiv
      simp only [List.length_cons]
      omega

theorem read_write_varint_go (fuel : Nat) :
    ∀ n k, 1 ≤ k → k ≤ fuel → n < 128 ^ k →
    ∀ (rest : List Nat) (ml shift acc : Nat),
      (write_varint_go n fuel).length ≤ ml →
      read_varint_ptr (write_varint_go n fuel ++ rest) ml shift acc
        = (acc + n * 2 ^ shift, (write_varint_go n fuel).length) := by
  induction fuel with
  | zero => intro n k h1 h2 _; omega
  | succ fuel ih =>
    intro n k h1 h2 hn rest ml shift acc hml
    by_cases hsmall : n < 128
    · simp only [write_varint_go, if_pos hsmall] at hml ⊢
      simp only [List.length_cons, List.length_nil] at hml
      obtain ⟨m, rfl⟩ : ∃ m, ml = m + 1 := ⟨ml - 1, by omega⟩
      simp only [List.cons_append, List.nil_append, read_varint_ptr, if_pos hsmall,
        List.length_cons, List.length_nil]
      rw [Nat.mod_eq_of_lt hsmall]
    · simp only [write_varint_go, if_neg hsmall] at hml ⊢
      simp only [List.length_cons] at hml
      obtain ⟨m, rfl⟩ : ∃ m, ml = m + 1 := ⟨ml - 1, by omega⟩
      have hk2 : 2 ≤ k := by
        by_contra hk
        have : k = 1 := by omega
        subst this
        simp at hn
        omega
      have hdiv : n / 128 < 128 ^ (k - 1) := by
        apply Nat.div_lt_of_lt_mul
        have hp : (128 : Nat) ^ (k - 1) * 128 = 128 ^ k := by
          rw [← pow_succ]
          congr 1
          omega
        omega
      have hpos := write_varint_go_length_pos (n / 128) fuel (by omega)
      have hrec := ih (n / 128) (k - 1) (by omega) (by omega) hdiv rest m (shift + 7)
        (acc + n % 128 * 2 ^ shift) (by omega)
      have hb : (n % 128 + 128) % 128 = n % 128 := by omega
      simp only [List.cons_append, read_varint_ptr, List.append_eq,
        if_neg (show ¬ n % 128 + 128 < 128 by omega)]
      rw [hb, hrec]
      have hval : acc + n % 128 * 2 ^ shift + n / 128 * 2 ^ (shift + 7)
          = acc + n * 2 ^ shift := by
        have h27 : (2 : Nat) ^ (shift + 7) = 2 ^ shift * 128 := by
          rw [pow_add]; norm_num
        rw [h27]
        have hnm : n % 128 + 128 * (n / 128) = n := Nat.mod_add_div n 128
        calc acc + n % 128 * 2 ^ shift + n / 128 * (2 ^ shift * 128)
            = acc + (n % 128 + 128 * (n / 128)) * 2 ^ shift := by ring
          _ = acc + n * 2 ^ shift := by rw [hnm]
      obtain ⟨c', hc'⟩ : ∃ c', (write_varint_go (n / 128) fuel).length = c' + 1 :=
        ⟨(write_varint_go (n / 128) fuel).length - 1, by omega⟩
      rw [hc']
      simp only [List.length_cons, hc']
      show (acc + n % 128 * 2 ^ shift + n / 128 * 2 ^ (shift + 7), c' + 1 + 1)
          = (acc + n * 2 ^ shift, c' + 1 + 1)
      rw [hval]

theorem write_varint_length_pos (n : Nat) : 1 ≤ (write_varint_ptr n).length :=
  write_varint_go_length_pos n 10 (by norm_num)

theorem write_varint_length_le (n k : Nat) (h1 : 1 ≤ k) (hk : k ≤ 10)
    (h : n < 128 ^ k) : (write_varint_ptr n).length ≤ k :=
  write_varint_go_length_le 10 n k h1 hk h

theorem read_write_varint (n : Nat) (h : n < 2 ^ 64) (rest : List Nat) (ml : Nat)
    (hml : (write_varint_ptr n).length ≤ ml) :
    read_varint_ptr (write_varint_ptr n ++ rest) ml 0 0
      = (n, (write_varint_ptr n).length) := by
  have hr := read_write_varint_go 10 n 10 (by norm_num) (le_refl 10)
    (lt_of_lt_of_le h (by norm_num)) rest ml 0 0 hml
  simpa using hr

theorem write_len_flag_ptr_eq (len : Nat) (flag : Bool) :
    write_len_flag_ptr len flag =
      if len < 127 then [(if flag then 128 else 0) + len]
      else ((if flag then 128 else 0) + 127) :: write_varint_ptr len := rfl

theorem write_len_flag_length_pos (len : Nat) (flag : Bool) :
    1 ≤ (write_len_flag_ptr len flag).length := by
  rw [write_len_flag_ptr_eq]
  split <;> simp

theorem write_len_flag_length_le (len : Nat) (flag : Bool) (h : len < 2 ^ 28) :
    (write_len_flag_ptr len flag).length ≤ 5 := by
  rw [write_len_flag_ptr_eq]
  have hv : (write_varint_ptr len).length ≤ 4 :=
    write_varint_length_le len 4 (by norm_num) (by norm_num)
      (lt_of_lt_of_le h (by norm_num))
  split
  · simp
  · simp only [List.length_cons]
    omega

theorem read_write_len_flag (len : Nat) (flag : Bool) (h : len < 2 ^ 64)
    (rest : List Nat) (ml : Nat)
    (hml : (write_len_flag_ptr len flag).length ≤ ml) :
    read_len_flag_ptr (write_len_flag_ptr len flag ++ rest) ml
      = (len, flag, (write_len_flag_ptr len flag).length) := by
  rw [write_len_flag_ptr_eq] at hml ⊢
  by_cases hl : len < 127
  · rw [if_pos hl] at hml ⊢
    simp only [List.cons_append, List.nil_append, read_len_flag_ptr,
      List.getD_cons_zero, List.length_cons, List.length_nil]
    have hmod : ((if flag then 128 else 0) + len) % 128 = len := by
      cases flag <;> simp <;> omega
    have hflag : decide (128 ≤ (if flag then 128 else 0) + len) = flag := by
      cases flag
      · simp
        omega
      · simp
    rw [hmod, hflag, if_pos hl]
  · rw [if_neg hl] at hml ⊢
    simp only [List.length_cons] at hml
    simp only [List.cons_append, read_len_flag_ptr, List.getD_cons_zero,
      List.drop_succ_cons, List.drop_zero, List.length_cons]
    have hmod : ((if flag then 128 else 0) + 127) % 128 = 127 := by
      cases flag <;> norm_num
    have hflag : decide (128 ≤ (if flag then 128 else 0) + 127) = flag := by
      cases flag <;> simp
    rw [hmod, if_neg (by omega), hflag,
      read_write_varint len h rest (ml - 1) (by omega),
      Nat.add_comm 1 (write_varint_ptr len).length]

theorem hexChar_lut (a : Nat) (h : HEX_LUT_LOWER a ≤ 15) :
    hexChar (HEX_LUT_LOWER a) = a := by
  unfold HEX_LUT_LOWER at h ⊢
  unfold hexChar
  split_ifs at h ⊢ <;> omega

theorem lut_le_15_iff (b : Nat) :
    HEX_LUT_LOWER b ≤ 15 ↔ isLowerHexDigit b = true := by
  unfold HEX_LUT_LOWER isLowerHexDigit
  split_ifs <;> simp <;> omega

theorem hex_decode_lt_256 : ∀ (s d : List Nat),
    hex_decode_checked s = some d → ∀ b ∈ d, b < 256
  | [], d, h => by
    simp only [hex_decode_checked, Option.some.injEq] at h
    subst h; simp
  | [a], d, h => by
    simp only [hex_decode_checked, Option.some.injEq] at h
    subst h; simp
  | a :: b :: rest, d, h => by
    simp only [hex_decode_checked] at h
    split at h
    · exact absurd h (by simp)
    · rename_i hgood
      push_neg at hgood
      cases hrest : hex_decode_checked rest with
      | none => rw [hrest] at h; exact absurd h (by simp)
      | some t =>
        rw [hrest] at h
        simp only [Option.some.injEq] at h
        subst h
        intro x hx
        simp only [List.mem_cons] at hx
        rcases hx with h | h
        · omega
        · exact hex_decode_lt_256 rest t hrest x h

theorem hex_decode_length : ∀ (s d : List Nat),
    hex_decode_checked s = some d → 2 * d.length ≤ s.length
  | [], d, h => by
    simp only [hex_decode_checked, Option.some.injEq] at h
    subst h; simp
  | [a], d, h => by
    simp only [hex_decode_checked, Option.some.injEq] at h
    subst h; simp
  | a :: b :: rest, d, h => by
    simp only [hex_decode_checked] at h
    split at h
    · exact absurd h (by simp)
    · cases hrest : hex_decode_checked rest with
      | none => rw [hrest] at h; exact absurd h (by simp)
      | some t =>
        rw [hrest] at h
        simp only [Option.some.injEq] at h
        subst h
        have := hex_decode_length rest t hrest
        simp only [List.length_cons]
        omega

theorem hex_encode_decode : ∀ (s d : List Nat), s.length % 2 = 0 →
    hex_decode_checked s = some d → hex_encode_fast d = s
  | [], d, _, h => by
    simp only [hex_decode_checked, Option.some.injEq] at h
    subst h; rfl
  | [a], _, he, _ => by simp at he
  | a :: b :: rest, d, he, h => by
    simp only [hex_decode_checked] at h
    split at h
    · exact absurd h (by simp)
    · rename_i hgood
      push_neg at hgood
      obtain ⟨hhi, hlo⟩ := hgood
      cases hrest : hex_decode_checked rest with
      | none => rw [hrest] at h; exact absurd h (by simp)
      | some t =>
        rw [hrest] at h
        simp only [Option.some.injEq] at h
        subst h
        have hre : rest.length % 2 = 0 := by
          simp only [List.length_cons] at he
          omega
        have ht := hex_encode_decode rest t hre hrest
        simp only [hex_encode_fast, List.flatMap_cons] at ht ⊢
        rw [ht]
        have h1 : (HEX_LUT_LOWER a * 16 + HEX_LUT_LOWER b) % 256
            = HEX_LUT_LOWER a * 16 + HEX_LUT_LOWER b := by omega
        have h2 : (HEX_LUT_LOWER a * 16 + HEX_LUT_LOWER b) / 16 = HEX_LUT_LOWER a := by
          omega
        have h3 : (HEX_LUT_LOWER a * 16 + HEX_LUT_LOWER b) % 16 = HEX_LUT_LOWER b := by
          omega
        rw [h1, h2, h3, hexChar_lut a (by omega), hexChar_lut b (by omega)]
        rfl

theorem hex_decode_none_of_bad : ∀ (s : List Nat) (b : Nat), s.length % 2 = 0 →
    b ∈ s → isLowerHexDigit b = false → hex_decode_checked s = none
  | [], b, _, hb, _ => by simp at hb
  | [a], _, he, _, _ => by simp at he
  | a :: c :: rest, b, he, hb, hbad => by
    have hlut : ¬ HEX_LUT_LOWER b ≤ 15 := by
      rw [lut_le_15_iff]
      simp [hbad]
    simp only [hex_decode_checked]
    simp only [List.mem_cons] at hb
    rcases hb with rfl | rfl | hmem
    · rw [if_pos (by omega)]
    · rw [if_pos (by omega)]
    · split
      · rfl
      · have hre : rest.length % 2 = 0 := by
          simp only [List.length_cons] at he
          omega
        rw [hex_decode_none_of_bad rest b hre hmem hbad]

theorem might_be_hex_length (s : List Nat) (h : might_be_hex s = true) :
    8 ≤ s.length ∧ s.length % 2 = 0 := by
  unfold might_be_hex at h
  split at h
  · simp at h
  · rename_i hguard
    simp only [Bool.or_eq_true, decide_eq_true_eq, bne_iff_ne, ne_eq, not_or] at hguard
    omega

/-! ### The per-value block: serializer side vs. header reader -/

theorem pack_value_spec (s : List Nat) (hb : ∀ b ∈ s, b < 256)
    (hlen : s.length < 2 ^ 28) :
    ∃ (flag : Bool) (payload : List Nat),
      pack_value s = write_len_flag_ptr payload.length flag ++ payload ∧
      (if flag then hex_encode_fast payload else payload) = s ∧
      (∀ b ∈ payload, b < 256) ∧ payload.length ≤ s.length ∧
      payload.length < 2 ^ 28 := by
  unfold pack_value
  by_cases hm : might_be_hex s = true
  · rw [if_pos hm]
    cases hd : hex_decode_checked s with
    | none => exact ⟨false, s, rfl, by simp, hb, le_refl _, hlen⟩
    | some d =>
      have hdl := hex_decode_length s d hd
      have hdlt := hex_decode_lt_256 s d hd
      have heven := (might_be_hex_length s hm).2
      have henc := hex_encode_decode s d heven hd
      have hwlf : (write_len_flag_ptr d.length true).length ≤ 5 :=
        write_len_flag_length_le _ _ (by omega)
      simp only []
      rw [if_pos hwlf]
      exact ⟨true, d, rfl, by simp [henc], hdlt, by omega, by omega⟩
  · rw [if_neg hm]
    exact ⟨false, s, rfl, by simp, hb, le_refl _, hlen⟩

theorem pack_value_length_pos (s : List Nat) : 1 ≤ (pack_value s).length := by
  have hall : ∀ (n : Nat) (f : Bool) (l : List Nat),
      1 ≤ (write_len_flag_ptr n f ++ l).length := by
    intro n f l
    have := write_len_flag_length_pos n f
    simp only [List.length_append]
    omega
  unfold pack_value
  split
  · split
    · rename_i d _
      simp only []
      split
      · exact hall _ _ _
      · simp only [List.length_append]
        have := write_len_flag_length_pos d.length true
        omega
    · exact hall _ _ _
  · exact hall _ _ _

/-! ### Scratch-vector reuse: the loops against their pure decoders -/

theorem take_set_of_le {α : Type} : ∀ (l : List α) (n : Nat) (a : α) (m : Nat),
    m ≤ n → (l.set n a).take m = l.take m
  | [], _, _, _, _ => by simp
  | x :: xs, n, a, 0, _ => by simp
  | x :: xs, 0, a, m + 1, h => by omega
  | x :: xs, n + 1, a, m + 1, h => by
    simp only [List.set_cons_succ, List.take_succ_cons]
    rw [take_set_of_le xs n a m (by omega)]

theorem setSeq_spec {α : Type} : ∀ (xs cur : List α) (j : Nat),
    j + xs.length ≤ cur.length →
    (setSeq cur j xs).length = cur.length ∧
    (setSeq cur j xs).take j = cur.take j ∧
    ((setSeq cur j xs).drop j).take xs.length = xs
  | [], cur, j, _ => ⟨rfl, rfl, by simp [setSeq]⟩
  | x :: xs, cur, j, h => by
    have hj : j < cur.length := by
      simp only [List.length_cons] at h
      omega
    have hrec := setSeq_spec xs (cur.set j x) (j + 1) (by
      simp only [List.length_set]
      simp only [List.length_cons] at h
      omega)
    obtain ⟨hlen, htake, hdrop⟩ := hrec
    have hstep : setSeq cur j (x :: xs) = setSeq (cur.set j x) (j + 1) xs := rfl
    have hLlen : (setSeq (cur.set j x) (j + 1) xs).length = cur.length := by
      rw [hlen, List.length_set]
    have hLj : j < (setSeq (cur.set j x) (j + 1) xs).length := by omega
    have hgetj : getElem (setSeq (cur.set j x) (j + 1) xs) j hLj = x := by
      have hjj : j < ((setSeq (cur.set j x) (j + 1) xs).take (j + 1)).length := by
        simp only [List.length_take]
        omega
      have h1 := List.getElem_of_eq htake hjj
      simp only [List.getElem_take, List.getElem_set_self] at h1
      exact h1
    refine ⟨by rw [hstep, hLlen], ?_, ?_⟩
    · rw [hstep]
      calc (setSeq (cur.set j x) (j + 1) xs).take j
          = ((setSeq (cur.set j x) (j + 1) xs).take (j + 1)).take j := by
            rw [List.take_take]
            congr 1
            omega
        _ = ((cur.set j x).take (j + 1)).take j := by rw [htake]
        _ = (cur.set j x).take j := by
            rw [List.take_take]
            congr 1
            omega
        _ = cur.take j := take_set_of_le cur j x j (le_refl j)
    · rw [hstep]
      have hdj : (setSeq (cur.set j x) (j + 1) xs).drop j
          = x :: (setSeq (cur.set j x) (j + 1) xs).drop (j + 1) := by
        rw [List.drop_eq_getElem_cons hLj, hgetj]
      rw [hdj]
      simp only [List.length_cons, List.take_succ_cons]
      rw [hdrop]

theorem placeTags_spec : ∀ (ts cur : List (List (List Nat))) (i : Nat),
    i ≤ cur.length →
    i + ts.length ≤ (placeTags cur i ts).length ∧
    (placeTags cur i ts).take i = cur.take i ∧
    ((placeTags cur i ts).drop i).take ts.length = ts
  | [], cur, i, h => ⟨by
      rw [show placeTags cur i [] = cur from rfl]
      simp only [List.length_nil]
      omega, rfl, by simp⟩
  | t :: ts, cur, i, h => by
    have hcur1len : i < (if cur.length ≤ i then cur ++ [[]] else cur).length := by
      split
      · simp only [List.length_append, List.length_cons, List.length_nil]
        omega
      · omega
    have hstep : placeTags cur i (t :: ts)
        = placeTags ((if cur.length ≤ i then cur ++ [[]] else cur).set i t) (i + 1) ts := rfl
    have hrec := placeTags_spec ts
      ((if cur.length ≤ i then cur ++ [[]] else cur).set i t) (i + 1) (by
        simp only [List.length_set]
        omega)
    obtain ⟨hlen, htake, hdrop⟩ := hrec
    have hLlen : i < (placeTags ((if cur.length ≤ i then cur ++ [[]] else cur).set i t)
        (i + 1) ts).length := by
      omega
    have hgeti : getElem (placeTags ((if cur.length ≤ i then cur ++ [[]] else cur).set i t)
        (i + 1) ts) i hLlen = t := by
      have hii : i < ((placeTags ((if cur.length ≤ i then cur ++ [[]] else cur).set i t)
          (i + 1) ts).take (i + 1)).length := by
        simp only [List.length_take]
        omega
      have h1 := List.getElem_of_eq htake hii
      simp only [List.getElem_take, List.getElem_set_self] at h1
      exact h1
    refine ⟨?_, ?_, ?_⟩
    · rw [hstep]
      simp only [List.length_cons]
      omega
    · rw [hstep]
      calc (placeTags ((if cur.length ≤ i then cur ++ [[]] else cur).set i t) (i + 1) ts).take i
          = ((placeTags ((if cur.length ≤ i then cur ++ [[]] else cur).set i t)
              (i + 1) ts).take (i + 1)).take i := by
            rw [List.take_take]
            congr 1
            omega
        _ = (((if cur.length ≤ i then cur ++ [[]] else cur).set i t).take (i + 1)).take i := by
            rw [htake]
        _ = ((if cur.length ≤ i then cur ++ [[]] else cur).set i t).take i := by
            rw [List.take_take]
            congr 1
            omega
        _ = (if cur.length ≤ i then cur ++ [[]] else cur).take i :=
            take_set_of_le _ i t i (le_refl i)
        _ = cur.take i := by
            split
            · rw [List.take_append_of_le_length (by omega)]
            · rfl
    · rw [hstep]
      have hdj : (placeTags ((if cur.length ≤ i then cur ++ [[]] else cur).set i t)
          (i + 1) ts).drop i
          = t :: (placeTags ((if cur.length ≤ i then cur ++ [[]] else cur).set i t)
            (i + 1) ts).drop (i + 1) := by
        rw [List.drop_eq_getElem_cons hLlen, hgeti]
      rw [hdj]
      simp only [List.length_cons, List.take_succ_cons]
      rw [hdrop]

theorem pureVals_ok_length (region : List Nat) (ml : Nat) : ∀ (k pos : Nat)
    (vs : List (List Nat)) (p : Nat),
    pureVals region ml k pos = .ok (vs, p) → vs.length = k
  | 0, pos, vs, p, h => by
    simp only [pureVals, Except.ok.injEq, Prod.mk.injEq] at h
    simp [← h.1]
  | k + 1, pos, vs, p, h => by
    simp only [pureVals] at h
    split at h
    · exact absurd h (by simp)
    · split at h
      · exact absurd h (by simp)
      · rename_i vs' p' heq
        simp only [Except.ok.injEq, Prod.mk.injEq] at h
        have hl := pureVals_ok_length region ml k _ vs' p' heq
        rw [← h.1]
        simp [hl]

theorem pureTags_ok_length (region : List Nat) (ml : Nat) : ∀ (k pos : Nat)
    (ts : List (List (List Nat))) (p : Nat),
    pureTags region ml k pos = .ok (ts, p) → ts.length = k
  | 0, pos, ts, p, h => by
    simp only [pureTags, Except.ok.injEq, Prod.mk.injEq] at h
    simp [← h.1]
  | k + 1, pos, ts, p, h => by
    simp only [pureTags] at h
    split at h
    · exact absurd h (by simp)
    · split at h
      · exact absurd h (by simp)
      · split at h
        · exact absurd h (by simp)
        · rename_i ts' p' heq
          simp only [Except.ok.injEq, Prod.mk.injEq] at h
          have hl := pureTags_ok_length region ml k _ ts' p' heq
          rw [← h.1]
          simp [hl]

theorem setSeq_pad_take {α : Type} (vs values : List α) (vc : Nat) (pad : α)
    (hlen : vs.length = vc) :
    (setSeq (if values.length < vc then
        values ++ List.replicate (vc - values.length) pad else values) 0 vs).take vc
      = vs := by
  have hp : vc ≤ (if values.length < vc then
      values ++ List.replicate (vc - values.length) pad else values).length := by
    split
    · simp only [List.length_append, List.length_replicate]
      omega
    · omega
  subst hlen
  have := (setSeq_spec vs (if values.length < vs.length then
      values ++ List.replicate (vs.length - values.length) pad else values) 0
    (by omega)).2.2
  simpa using this

theorem unpack_values_loop_eq (region : List Nat) (ml : Nat) :
    ∀ (k pos j : Nat) (cur : List (List Nat)),
      unpack_values_loop region ml k cur pos j
        = (pureVals region ml k pos).map fun p => (setSeq cur j p.1, p.2)
  | 0, pos, j, cur => by
    simp [unpack_values_loop, pureVals, Except.map, setSeq]
  | k + 1, pos, j, cur => by
    simp only [unpack_values_loop, pureVals]
    split
    · simp [Except.map]
    · rw [unpack_values_loop_eq region ml k]
      cases hres : pureVals region ml k
          (pos + (read_len_flag_ptr (region.drop pos) (ml - pos)).2.2
            + (read_len_flag_ptr (region.drop pos) (ml - pos)).1) with
      | error e => simp [Except.map]
      | ok vp =>
        obtain ⟨vs, p⟩ := vp
        simp only [Except.map]
        rfl

theorem unpack_tags_loop_eq (region : List Nat) (ml : Nat) :
    ∀ (k pos i : Nat) (cur : List (List (List Nat))),
      unpack_tags_loop region ml k cur pos i
        = (pureTags region ml k pos).map fun p => (placeTags cur i p.1, p.2)
  | 0, pos, i, cur => by
    simp [unpack_tags_loop, pureTags, Except.map, placeTags]
  | k + 1, pos, i, cur => by
    simp only [unpack_tags_loop, pureTags]
    split
    · simp [Except.map]
    · rw [unpack_values_loop_eq region ml]
      cases hres : pureVals region ml (region.getD pos 0) (pos + 1) with
      | error e => simp [Except.map]
      | ok vp =>
        obtain ⟨vs, p⟩ := vp
        simp only [Except.map]
        have hvslen : vs.length = region.getD pos 0 :=
          pureVals_ok_length region ml _ _ vs p hres
        rw [setSeq_pad_take vs _ _ _ hvslen]
        rw [unpack_tags_loop_eq region ml k]
        cases hts : pureTags region ml k p with
        | error e => simp [Except.map]
        | ok tp =>
          obtain ⟨ts, p'⟩ := tp
          simp only [Except.map]
          rfl

/-! ### Decoding what the serializer packed -/

theorem pureVals_of_packed (region : List Nat) :
    ∀ (vals : List (List Nat)) (pos : Nat) (rest : List Nat),
    region.drop pos = vals.flatMap pack_value ++ rest →
    (∀ v ∈ vals, WfStr v) →
    pureVals region region.length vals.length pos
      = .ok (vals, pos + (vals.flatMap pack_value).length)
  | [], pos, rest, hre, hwf => by simp [pureVals]
  | v :: vs, pos, rest, hre, hwf => by
    obtain ⟨hvb, hvlen⟩ := hwf v (List.mem_cons_self v vs)
    obtain ⟨flag, payload, hpv, hdec, hplt, hple, hpl28⟩ := pack_value_spec v hvb hvlen
    have hre' : region.drop pos
        = write_len_flag_ptr payload.length flag
          ++ (payload ++ (vs.flatMap pack_value ++ rest)) := by
      rw [hre]
      simp only [List.flatMap_cons, hpv, List.append_assoc]
    have hdl : (region.drop pos).length = region.length - pos := List.length_drop _ _
    have hwlflen := write_len_flag_length_pos payload.length flag
    have hsum : (write_len_flag_ptr payload.length flag).length + payload.length
        + (vs.flatMap pack_value ++ rest).length = region.length - pos := by
      rw [← hdl, hre']
      simp only [List.length_append]
      omega
    have hposle : pos ≤ region.length := by
      by_contra hlt
      have hnil : region.drop pos = [] := List.drop_eq_nil_of_le (by omega)
      rw [hnil] at hre'
      have := congrArg List.length hre'
      simp only [List.length_nil, List.length_append] at this
      omega
    have hread : read_len_flag_ptr (region.drop pos) (region.length - pos)
        = (payload.length, flag, (write_len_flag_ptr payload.length flag).length) := by
      rw [hre']
      exact read_write_len_flag payload.length flag (by omega) _ _ (by omega)
    have hbytes : (region.drop
          (pos + (write_len_flag_ptr payload.length flag).length)).take payload.length
        = payload := by
      have h1 : region.drop (pos + (write_len_flag_ptr payload.length flag).length)
          = payload ++ (vs.flatMap pack_value ++ rest) := by
        rw [← List.drop_drop, hre', List.drop_left]
      rw [h1, List.take_left]
    have hdrop2 : region.drop
          (pos + (write_len_flag_ptr payload.length flag).length + payload.length)
        = vs.flatMap pack_value ++ rest := by
      have h1 : region.drop (pos + (write_len_flag_ptr payload.length flag).length)
          = payload ++ (vs.flatMap pack_value ++ rest) := by
        rw [← List.drop_drop, hre', List.drop_left]
      rw [← List.drop_drop, h1, List.drop_left]
    have hrec := pureVals_of_packed region vs
      (pos + (write_len_flag_ptr payload.length flag).length + payload.length) rest
      hdrop2 (fun w hw => hwf w (List.mem_cons_of_mem v hw))
    simp only [List.length_cons, pureVals, hread]
    rw [if_neg (by omega)]
    rw [hbytes, hdec, hrec]
    have hlenpv : (pack_value v).length
        = (write_len_flag_ptr payload.length flag).length + payload.length := by
      rw [hpv]
      simp [List.length_append]
    simp only [List.flatMap_cons, List.length_append, Except.ok.injEq, Prod.mk.injEq,
      true_and]
    omega

theorem pureTags_of_packed (region : List Nat) :
    ∀ (tags : List (List (List Nat))) (pos : Nat) (rest : List Nat),
    region.drop pos
      = (tags.flatMap fun t => t.length % 256 :: t.flatMap pack_value) ++ rest →
    (∀ t ∈ tags, t.length ≤ 255 ∧ ∀ v ∈ t, WfStr v) →
    pureTags region region.length tags.length pos
      = .ok (tags, pos
          + (tags.flatMap fun t => t.length % 256 :: t.flatMap pack_value).length)
  | [], pos, rest, hre, hwf => by simp [pureTags]
  | t :: ts, pos, rest, hre, hwf => by
    obtain ⟨htlen, htwf⟩ := hwf t (List.mem_cons_self t ts)
    have hmod : t.length % 256 = t.length := Nat.mod_eq_of_lt (by omega)
    have hre1 : region.drop pos
        = t.length % 256 :: (t.flatMap pack_value
          ++ ((ts.flatMap fun u => u.length % 256 :: u.flatMap pack_value) ++ rest)) := by
      rw [hre]
      simp only [List.flatMap_cons, List.cons_append, List.append_assoc]
    have hposlt : pos < region.length := by
      by_contra hc
      have hnil : region.drop pos = [] := List.drop_eq_nil_of_le (by omega)
      rw [hnil] at hre1
      exact absurd hre1 (by simp)
    have hgd : region.getD pos 0 = t.length % 256 := getD_of_drop_cons 0 hre1
    have hdrop1 : region.drop (pos + 1)
        = t.flatMap pack_value
          ++ ((ts.flatMap fun u => u.length % 256 :: u.flatMap pack_value) ++ rest) := by
      have h1 : (region.drop pos).drop 1 = region.drop (pos + 1) := List.drop_drop 1 pos region
      rw [← h1, hre1]
      simp
    have hvals := pureVals_of_packed region t (pos + 1) _ hdrop1 htwf
    have hdrop2 : region.drop (pos + 1 + (t.flatMap pack_value).length)
        = (ts.flatMap fun u => u.length % 256 :: u.flatMap pack_value) ++ rest := by
      have h1 : (region.drop (pos + 1)).drop (t.flatMap pack_value).length
          = region.drop (pos + 1 + (t.flatMap pack_value).length) :=
        List.drop_drop _ _ _
      rw [← h1, hdrop1, List.drop_left]
    have hrec := pureTags_of_packed region ts (pos + 1 + (t.flatMap pack_value).length)
      rest hdrop2 (fun u hu => hwf u (List.mem_cons_of_mem t hu))
    simp only [List.length_cons, pureTags]
    rw [if_neg (show ¬ pos ≥ region.length by omega)]
    rw [hgd, hmod, hvals]
    dsimp only []
    rw [hrec]
    simp only [List.flatMap_cons, List.length_cons, List.length_append,
      Except.ok.injEq, Prod.mk.injEq, true_and]
    omega

theorem unpack_tags_into_of_packed (tags : List (List (List Nat)))
    (prior : List (List (List Nat)))
    (hwf : ∀ t ∈ tags, t.length ≤ 255 ∧ ∀ v ∈ t, WfStr v)
    (hcount : tags.length < 2 ^ 64) :
    unpack_tags_into (pack_tags_fast tags) prior = .ok tags := by
  have hwvpos := write_varint_length_pos tags.length
  have hlen : (pack_tags_fast tags).length
      = (write_varint_ptr tags.length).length
        + (tags.flatMap fun t => t.length % 256 :: t.flatMap pack_value).length := by
    unfold pack_tags_fast
    simp [List.length_append]
  have hread := read_write_varint tags.length hcount
    (tags.flatMap fun t => t.length % 256 :: t.flatMap pack_value)
    (pack_tags_fast tags).length (by omega)
  have hdropv : (pack_tags_fast tags).drop (write_varint_ptr tags.length).length
      = (tags.flatMap fun t => t.length % 256 :: t.flatMap pack_value) ++ [] := by
    unfold pack_tags_fast
    rw [List.drop_left, List.append_nil]
  have hpure := pureTags_of_packed (pack_tags_fast tags) tags
    (write_varint_ptr tags.length).length [] hdropv hwf
  unfold unpack_tags_into
  rw [if_neg (by omega)]
  have hscrut : read_varint_ptr (pack_tags_fast tags) (pack_tags_fast tags).length 0 0
      = (tags.length, (write_varint_ptr tags.length).length) := by
    conv_lhs => rw [show pack_tags_fast tags
      = write_varint_ptr tags.length
        ++ (tags.flatMap fun t => t.length % 256 :: t.flatMap pack_value) from rfl]
    exact hread
  rw [hscrut]
  simp only []
  rw [if_neg (by omega)]
  rw [unpack_tags_loop_eq, hpure]
  simp only [Except.map]
  have htake := (placeTags_spec tags prior 0 (by omega)).2.2
  simp only [List.drop_zero] at htake
  rw [htake]

theorem unpack_tags_into_indep (region : List Nat)
    (p1 p2 : List (List (List Nat))) :
    unpack_tags_into region p1 = unpack_tags_into region p2 := by
  unfold unpack_tags_into
  simp only []
  split
  · rfl
  · split
    · rfl
    · rw [unpack_tags_loop_eq, unpack_tags_loop_eq]
      cases hts : pureTags region region.length
          (read_varint_ptr region region.length 0 0).1
          (read_varint_ptr region region.length 0 0).2 with
      | error e => simp [Except.map]
      | ok tp =>
        obtain ⟨ts, p⟩ := tp
        simp only [Except.map]
        have hl := pureTags_ok_length region region.length _ _ ts p hts
        have h1 := (placeTags_spec ts p1 0 (by omega)).2.2
        have h2 := (placeTags_spec ts p2 0 (by omega)).2.2
        simp only [List.drop_zero] at h1 h2
        rw [← hl, h1, h2]

/-! ### The full record round trip -/

theorem tags_length_le_flat (tags : List (List (List Nat))) :
    tags.length ≤ (tags.flatMap fun t => t.length % 256 :: t.flatMap pack_value).length := by
  induction tags with
  | nil => simp
  | cons t ts ih =>
    simp only [List.flatMap_cons, List.length_cons, List.length_append]
    omega

theorem pack_tags_count_le (tags : List (List (List Nat))) :
    tags.length ≤ (pack_tags_fast tags).length := by
  unfold pack_tags_fast
  simp only [List.length_append]
  have := tags_length_le_flat tags
  omega

theorem serializeBytes_decomp (e : NostrEvent)
    (htd : (pack_tags_fast e.tags).length < 2 ^ 35) :
    serializeBytes e
      = e.id ++ (e.pubkey ++ (e.sig ++ (i64ToLe e.created_at ++ (natToLe 2 e.kind
          ++ (write_varint_ptr (pack_tags_fast e.tags).length
            ++ (pack_tags_fast e.tags ++ pack_value e.content)))))) := by
  unfold serializeBytes fixedBlock tagSection
  have h5 : (write_varint_ptr (pack_tags_fast e.tags).length).length ≤ 5 :=
    write_varint_length_le _ 5 (by norm_num) (by norm_num)
      (lt_of_lt_of_le htd (by norm_num))
  simp only []
  split
  · simp [List.append_assoc]
  · have h5' : (write_varint_ptr (pack_tags_fast e.tags).length).length - 5 = 0 := by
      omega
    rw [h5', List.drop_zero]
    simp [List.append_assoc]

theorem deserialize_into_serializeBytes (e : NostrEvent) (he : Representable e)
    (prior : NostrEvent) :
    deserialize_into (serializeBytes e) prior
      = .ok { e with kind := e.kind % 65536 } := by
  obtain ⟨hid, hpk, hsig, hidb, hpkb, hsigb, hc1, hc2, htags, hcont, htd⟩ := he
  obtain ⟨hcb, hclen⟩ := hcont
  have hwvpos := write_varint_length_pos (pack_tags_fast e.tags).length
  have hpvpos := pack_value_length_pos e.content
  have hsd := serializeBytes_decomp e htd
  have hi64len : (i64ToLe e.created_at).length = 8 := length_natToLe 8 _
  have hk2len : (natToLe 2 e.kind).length = 2 := length_natToLe 2 _
  have hlen : (serializeBytes e).length
      = 138 + ((write_varint_ptr (pack_tags_fast e.tags).length).length
        + ((pack_tags_fast e.tags).length + (pack_value e.content).length)) := by
    rw [hsd]
    simp only [List.length_append, hid, hpk, hsig, hi64len, hk2len]
    omega
  have hd32 : (serializeBytes e).drop 32
      = e.pubkey ++ (e.sig ++ (i64ToLe e.created_at ++ (natToLe 2 e.kind
        ++ (write_varint_ptr (pack_tags_fast e.tags).length
          ++ (pack_tags_fast e.tags ++ pack_value e.content))))) := by
    rw [hsd, List.drop_left' hid]
  have hd64 : (serializeBytes e).drop 64
      = e.sig ++ (i64ToLe e.created_at ++ (natToLe 2 e.kind
        ++ (write_varint_ptr (pack_tags_fast e.tags).length
          ++ (pack_tags_fast e.tags ++ pack_value e.content)))) := by
    rw [show (64 : Nat) = 32 + 32 from rfl, ← List.drop_drop, hd32,
      List.drop_left' hpk]
  have hd128 : (serializeBytes e).drop 128
      = i64ToLe e.created_at ++ (natToLe 2 e.kind
        ++ (write_varint_ptr (pack_tags_fast e.tags).length
          ++ (pack_tags_fast e.tags ++ pack_value e.content))) := by
    rw [show (128 : Nat) = 64 + 64 from rfl, ← List.drop_drop, hd64,
      List.drop_left' hsig]
  have hd136 : (serializeBytes e).drop 136
      = natToLe 2 e.kind ++ (write_varint_ptr (pack_tags_fast e.tags).length
        ++ (pack_tags_fast e.tags ++ pack_value e.content)) := by
    rw [show (136 : Nat) = 128 + 8 from rfl, ← List.drop_drop, hd128,
      List.drop_left' hi64len]
  have hd138 : (serializeBytes e).drop 138
      = write_varint_ptr (pack_tags_fast e.tags).length
        ++ (pack_tags_fast e.tags ++ pack_value e.content) := by
    rw [show (138 : Nat) = 136 + 2 from rfl, ← List.drop_drop, hd136,
      List.drop_left' hk2len]
  have htake32 : (serializeBytes e).take 32 = e.id := by
    rw [hsd]
    exact List.take_left' hid
  have htkpk : ((serializeBytes e).drop 32).take 32 = e.pubkey := by
    rw [hd32]
    exact List.take_left' hpk
  have htksig : ((serializeBytes e).drop 64).take 64 = e.sig := by
    rw [hd64]
    exact List.take_left' hsig
  have htkc : i64FromLe (((serializeBytes e).drop 128).take 8) = e.created_at := by
    rw [hd128, List.take_left' hi64len]
    exact i64_roundtrip _ hc1 hc2
  have htkk : leToNat (((serializeBytes e).drop 136).take 2) = e.kind % 65536 := by
    rw [hd136, List.take_left' hk2len, leToNat_natToLe]
    norm_num
  have h3564 : (2 : Nat) ^ 35 < 2 ^ 64 := by norm_num
  have hvarint : read_varint_ptr ((serializeBytes e).drop 138)
      ((serializeBytes e).length - 138) 0 0
      = ((pack_tags_fast e.tags).length,
         (write_varint_ptr (pack_tags_fast e.tags).length).length) := by
    rw [hd138]
    exact read_write_varint _ (by omega) _ _ (by omega)
  have hregion : (List.drop
        (138 + (write_varint_ptr (pack_tags_fast e.tags).length).length)
        (serializeBytes e)).take (pack_tags_fast e.tags).length
      = pack_tags_fast e.tags := by
    rw [← List.drop_drop, hd138, List.drop_left, List.take_left]
  have hcount : e.tags.length < 2 ^ 64 := by
    have := pack_tags_count_le e.tags
    omega
  have hunpack := unpack_tags_into_of_packed e.tags prior.tags htags hcount
  obtain ⟨cflag, cpayload, hcpv, hcdec, hcplt, hcple, hcpl28⟩ :=
    pack_value_spec e.content hcb hclen
  have hcwlfpos := write_len_flag_length_pos cpayload.length cflag
  have hcpvlen : (pack_value e.content).length
      = (write_len_flag_ptr cpayload.length cflag).length + cpayload.length := by
    rw [hcpv]
    simp [List.length_append]
  have hdpv : (serializeBytes e).drop
      (138 + (write_varint_ptr (pack_tags_fast e.tags).length).length
        + (pack_tags_fast e.tags).length)
      = pack_value e.content := by
    rw [← List.drop_drop, ← List.drop_drop, hd138, List.drop_left, List.drop_left]
  have hcread : read_len_flag_ptr ((serializeBytes e).drop
        (138 + (write_varint_ptr (pack_tags_fast e.tags).length).length
          + (pack_tags_fast e.tags).length))
      ((serializeBytes e).length
        - (138 + (write_varint_ptr (pack_tags_fast e.tags).length).length
          + (pack_tags_fast e.tags).length))
      = (cpayload.length, cflag, (write_len_flag_ptr cpayload.length cflag).length) := by
    rw [hdpv, hcpv]
    exact read_write_len_flag cpayload.length cflag (by omega) _ _ (by omega)
  have hcbytes : ((serializeBytes e).drop
        (138 + (write_varint_ptr (pack_tags_fast e.tags).length).length
          + (pack_tags_fast e.tags).length
          + (write_len_flag_ptr cpayload.length cflag).length)).take cpayload.length
      = cpayload := by
    rw [← List.drop_drop, hdpv, hcpv, List.drop_left, List.take_length]
  unfold deserialize_into
  simp only [FIXED_SIZE]
  rw [if_neg (by omega)]
  rw [hvarint]
  dsimp only []
  rw [if_neg (by omega), hregion, hunpack]
  dsimp only []
  rw [hcread]
  dsimp only []
  rw [hcbytes, hcdec, htake32, htkpk, htksig, htkc, htkk]
  have hfinal : ¬ cpayload.length >
      (serializeBytes e).length -
        (138 + (write_varint_ptr (pack_tags_fast e.tags).length).length
          + (pack_tags_fast e.tags).length
          + (write_len_flag_ptr cpayload.length cflag).length) := by omega
  rw [if_neg hfinal]
  have hfinal2 : ¬ (pack_tags_fast e.tags).length >
      (serializeBytes e).length
        - (138 + (write_varint_ptr (pack_tags_fast e.tags).length).length) := by omega
  rw [if_neg hfinal2]

theorem deserialize_serialize_mod (e : NostrEvent) (he : Representable e) :
    deserialize (serialize e []) = .ok { e with kind := e.kind % 65536 } :=
  deserialize_into_serializeBytes e he zeroEvent

/-! ### The batch codec -/

theorem serialize_batch_go (events : List NostrEvent) : ∀ (buf : List Nat),
    events.foldl
      (fun buf e =>
        let len_pos := buf.length
        let buf := buf ++ [0, 0, 0, 0]
        let buf := serialize e buf
        let event_len := buf.length - len_pos - 4
        writeSlice buf len_pos (natToLe 4 event_len)) buf
      = buf ++ events.flatMap
          fun e => natToLe 4 (serializeBytes e).length ++ serializeBytes e := by
  induction events with
  | nil => intro buf; simp
  | cons e es ih =>
    intro buf
    simp only [List.foldl_cons, List.flatMap_cons]
    have hstep : (let len_pos := buf.length
        let buf2 := buf ++ [0, 0, 0, 0]
        let buf3 := serialize e buf2
        let event_len := buf3.length - len_pos - 4
        writeSlice buf3 len_pos (natToLe 4 event_len))
        = buf ++ (natToLe 4 (serializeBytes e).length ++ serializeBytes e) := by
      have hassoc : serialize e (buf ++ [0, 0, 0, 0])
          = buf ++ ([0, 0, 0, 0] ++ serializeBytes e) := by
        simp [serialize, List.append_assoc]
      have hlen2 : (serialize e (buf ++ [0, 0, 0, 0])).length - buf.length - 4
          = (serializeBytes e).length := by
        rw [hassoc]
        simp only [List.length_append, List.length_cons, List.length_nil]
        omega
      have h4 : (natToLe 4 ((serializeBytes e).length)).length = 4 :=
        length_natToLe 4 _
      dsimp only []
      rw [hlen2, hassoc]
      unfold writeSlice
      rw [List.take_left, h4]
      rw [show buf.length + 4
          = buf.length + ([0, 0, 0, 0] : List Nat).length from rfl]
      rw [← List.drop_drop, List.drop_left, List.drop_left, List.append_assoc]
    rw [hstep, ih]
    rw [List.append_assoc]

theorem serialize_batch_eq (events : List NostrEvent) :
    serialize_batch events
      = natToLe 4 events.length
        ++ events.flatMap
          fun e => natToLe 4 (serializeBytes e).length ++ serializeBytes e := by
  unfold serialize_batch
  exact serialize_batch_go events _

theorem deserialize_batch_loop_of (events : List NostrEvent)
    (hwf : ∀ e ∈ events, Representable e ∧ e.kind < 65536
      ∧ (serializeBytes e).length < 2 ^ 32) :
    deserialize_batch_loop events.length
        (events.flatMap fun e => natToLe 4 (serializeBytes e).length ++ serializeBytes e)
      = .ok events := by
  induction events with
  | nil => simp [deserialize_batch_loop]
  | cons e es ih =>
    obtain ⟨hre, hk, h32⟩ := hwf e (List.mem_cons_self e es)
    have h4 : (natToLe 4 ((serializeBytes e).length)).length = 4 := length_natToLe 4 _
    simp only [List.flatMap_cons, List.length_cons, deserialize_batch_loop,
      List.append_assoc]
    set F : NostrEvent → List Nat
      := fun x => natToLe 4 (serializeBytes x).length ++ serializeBytes x with hF
    have hguard1 : ¬ (natToLe 4 (serializeBytes e).length
        ++ (serializeBytes e ++ es.flatMap F)).length < 4 := by
      simp only [List.length_append, h4]
      omega
    rw [if_neg hguard1, List.take_left' h4, List.drop_left' h4, leToNat_natToLe]
    have hmod : (serializeBytes e).length % 256 ^ 4 = (serializeBytes e).length := by
      apply Nat.mod_eq_of_lt
      calc (serializeBytes e).length < 2 ^ 32 := h32
        _ ≤ 256 ^ 4 := by norm_num
    rw [hmod]
    have hguard2 : ¬ (serializeBytes e).length
        > (serializeBytes e ++ es.flatMap F).length := by
      simp only [List.length_append]
      omega
    rw [if_neg hguard2, List.take_left, List.drop_left]
    have he2 : deserialize (serializeBytes e) = .ok e := by
      have h1 := deserialize_into_serializeBytes e hre zeroEvent
      have h2 : e.kind % 65536 = e.kind := Nat.mod_eq_of_lt hk
      rw [show (deserialize (serializeBytes e) : Except DannyPackError NostrEvent)
          = deserialize_into (serializeBytes e) zeroEvent from rfl, h1, h2]
    rw [he2]
    dsimp only []
    rw [ih (fun x hx => hwf x (List.mem_cons_of_mem e hx))]

theorem deserialize_batch_serialize_batch (events : List NostrEvent)
    (hwf : ∀ e ∈ events, Representable e ∧ e.kind < 65536
      ∧ (serializeBytes e).length < 2 ^ 32)
    (hcnt : events.length < 2 ^ 32) :
    deserialize_batch (serialize_batch events) = .ok events := by
  rw [serialize_batch_eq]
  unfold deserialize_batch
  set F : NostrEvent → List Nat
    := fun x => natToLe 4 (serializeBytes x).length ++ serializeBytes x with hF
  have h4 : (natToLe 4 events.length).length = 4 := length_natToLe 4 _
  have hguard : ¬ (natToLe 4 events.length ++ events.flatMap F).length < 4 := by
    simp only [List.length_append, h4]
    omega
  rw [if_neg hguard, List.take_left' h4, List.drop_left' h4, leToNat_natToLe]
  have hmod : events.length % 256 ^ 4 = events.length := by
    apply Nat.mod_eq_of_lt
    calc events.length < 2 ^ 32 := hcnt
      _ ≤ 256 ^ 4 := by norm_num
  rw [hmod]
  exact deserialize_batch_loop_of events hwf

/-! ### Remaining supporting facts for the claims -/

theorem fixedBlock_length (e : NostrEvent) (hid : e.id.length = 32)
    (hpk : e.pubkey.length = 32) (hsig : e.sig.length = 64) :
    (fixedBlock e).length = 138 := by
  unfold fixedBlock
  simp [List.length_append, hid, hpk, hsig, i64ToLe, length_natToLe]

theorem serializeBytes_take_138 (e : NostrEvent) (he : Representable e) :
    (serializeBytes e).take 138 = fixedBlock e := by
  obtain ⟨hid, hpk, hsig, _, _, _, _, _, _, _, _⟩ := he
  have hfl := fixedBlock_length e hid hpk hsig
  unfold serializeBytes
  rw [List.append_assoc]
  exact List.take_left' hfl

theorem serializeBytes_kind_slice (e : NostrEvent) (he : Representable e) :
    ((serializeBytes e).drop 136).take 2 = natToLe 2 e.kind := by
  obtain ⟨hid, hpk, hsig, _, _, _, _, _, _, _, htd⟩ := he
  have hsd := serializeBytes_decomp e htd
  have hi64len : (i64ToLe e.created_at).length = 8 := length_natToLe 8 _
  have hd32 : (serializeBytes e).drop 32
      = e.pubkey ++ (e.sig ++ (i64ToLe e.created_at ++ (natToLe 2 e.kind
        ++ (write_varint_ptr (pack_tags_fast e.tags).length
          ++ (pack_tags_fast e.tags ++ pack_value e.content))))) := by
    rw [hsd]
    exact List.drop_left' hid
  have hd64 : (serializeBytes e).drop 64
      = e.sig ++ (i64ToLe e.created_at ++ (natToLe 2 e.kind
        ++ (write_varint_ptr (pack_tags_fast e.tags).length
          ++ (pack_tags_fast e.tags ++ pack_value e.content)))) := by
    rw [show (64 : Nat) = 32 + 32 from rfl, ← List.drop_drop, hd32,
      List.drop_left' hpk]
  have hd128 : (serializeBytes e).drop 128
      = i64ToLe e.created_at ++ (natToLe 2 e.kind
        ++ (write_varint_ptr (pack_tags_fast e.tags).length
          ++ (pack_tags_fast e.tags ++ pack_value e.content))) := by
    rw [show (128 : Nat) = 64 + 64 from rfl, ← List.drop_drop, hd64,
      List.drop_left' hsig]
  have hd136 : (serializeBytes e).drop 136
      = natToLe 2 e.kind ++ (write_varint_ptr (pack_tags_fast e.tags).length
        ++ (pack_tags_fast e.tags ++ pack_value e.content)) := by
    rw [show (136 : Nat) = 128 + 8 from rfl, ← List.drop_drop, hd128,
      List.drop_left' hi64len]
  rw [hd136]
  exact List.take_left' (length_natToLe 2 _)

theorem natToLe_two_mod (k : Nat) : natToLe 2 (k % 65536) = natToLe 2 k := by
  simp only [natToLe, List.cons.injEq]
  refine ⟨by omega, by omega, trivial⟩

theorem pack_value_literal (s : List Nat)
    (h : ¬ (8 ≤ s.length ∧ s.length % 2 = 0 ∧ ∀ b ∈ s, isLowerHexDigit b = true)) :
    pack_value s = write_len_flag_ptr s.length false ++ s := by
  unfold pack_value
  by_cases hm : might_be_hex s = true
  · rw [if_pos hm]
    obtain ⟨hge, heven⟩ := might_be_hex_length s hm
    push_neg at h
    obtain ⟨b, hb, hbad⟩ := h hge heven
    have hbad2 : isLowerHexDigit b = false := by
      simpa using hbad
    rw [hex_decode_none_of_bad s b heven hb hbad2]
  · rw [if_neg hm]

theorem representable_single (s : List Nat) (hb : ∀ b ∈ s, b < 256)
    (hlen : s.length < 2 ^ 28) :
    Representable
      { id := List.replicate 32 0, pubkey := List.replicate 32 0,
        created_at := 0, kind := 0, tags := [[s]], content := s,
        sig := List.replicate 64 0 } := by
  have hpvlen : (pack_value s).length ≤ 5 + s.length := by
    obtain ⟨flag, payload, hpv, _, _, hple, hpl28⟩ := pack_value_spec s hb hlen
    have := write_len_flag_length_le payload.length flag hpl28
    rw [hpv]
    simp only [List.length_append]
    omega
  refine ⟨by simp, by simp, by simp, by simp, by simp, by simp,
    by norm_num, by norm_num, ?_, ⟨hb, hlen⟩, ?_⟩
  · intro t ht
    simp only [List.mem_singleton] at ht
    subst ht
    refine ⟨by simp, ?_⟩
    intro v hv
    simp only [List.mem_singleton] at hv
    subst hv
    exact ⟨hb, hlen⟩
  · unfold pack_tags_fast
    have hwv1 : (write_varint_ptr (1 : Nat)).length ≤ 5 :=
      write_varint_length_le 1 5 (by norm_num) (by norm_num) (by norm_num)
    simp only [List.flatMap_cons, List.flatMap_nil, List.length_append,
      List.length_cons, List.length_nil, List.append_nil, Nat.zero_add]
    omega

/-! ## The claims -/

/-- C1: for every representable record (id 32 bytes, pubkey 32 bytes, sig 64
bytes, `created_at` in `i64` range, kind in 0..65535, at most 255 values per
tag, byte-string tag values and content), deserializing the serialized bytes
succeeds and returns a record equal to the original in every field.
Representability also asks each string and the tag section to fit their
5-byte reserved headers (below 2^28 and 2^35 bytes respectively); empty
content, zero tags, a tag with zero values and multi-byte UTF-8 content are
all instances (see the witness). -/
theorem dannypack_roundtrip (e : NostrEvent) (he : Representable e)
    (hkind : e.kind < 65536) :
    deserialize (serialize e []) = .ok e := by
  rw [deserialize_serialize_mod e he, Nat.mod_eq_of_lt hkind]

/-- Witness for C1, at a record with multi-byte UTF-8 content and a hex tag
value, and at a record with empty content and a tag with zero values. -/
theorem dannypack_roundtrip_witness :
    (Representable sampleUtf8Event ∧ sampleUtf8Event.kind < 65536 ∧
      deserialize (serialize sampleUtf8Event []) = .ok sampleUtf8Event) ∧
    (Representable sampleEmptyEvent ∧ sampleEmptyEvent.kind < 65536 ∧
      deserialize (serialize sampleEmptyEvent []) = .ok sampleEmptyEvent) :=
  ⟨⟨by decide, by decide,
    dannypack_roundtrip sampleUtf8Event (by decide) (by decide)⟩,
   ⟨by decide, by decide,
    dannypack_roundtrip sampleEmptyEvent (by decide) (by decide)⟩⟩

/-- C2 (refuting the claim as stated — the code accepts a strict prefix):
`c2Record` serializes to 269 bytes and round-trips, yet the strict 141-byte
prefix of its encoding — ending right after the `0x7F` marker byte of the
content header — deserializes to `Ok` with empty content instead of a
`TooShort`/`InvalidTagData` error: `read_len_flag_ptr` turns the `(0, 0)`
truncation sentinel of `read_varint_ptr` into a zero-length header. -/
theorem truncated_prefix_accepted :
    deserialize (serializeBytes c2Record) = .ok c2Record ∧
    (serializeBytes c2Record).length = 269 ∧
    deserialize ((serializeBytes c2Record).take 141)
      = .ok { c2Record with content := [] } :=
  ⟨by decide, by decide, by decide⟩

/-- C3 (refuting the claim as stated — the code never validates UTF-8): on
`c3Input`, whose content run has the hex flag clear and consists of the
single byte `0xFF` (not valid UTF-8), `deserialize` returns `Ok` carrying
that byte as the content string instead of failing the record. -/
theorem invalid_utf8_accepted :
    deserialize c3Input = .ok { zeroEvent with content := [255] } ∧
    isValidUtf8 [255] = false :=
  ⟨by decide, by decide⟩

/-- C4: the wire stores `kind` in exactly 2 little-endian bytes (offsets
136-137 of the encoding), so for every representable record whose `kind`
exceeds 65535 serialization silently writes `kind mod 65536` (serialize is
total — it has no error path) and the round trip returns a record whose
`kind` is `kind mod 65536`. -/
theorem kind_truncated_mod_65536 (e : NostrEvent) (he : Representable e)
    (_hk : 65535 < e.kind) :
    ((serialize e []).drop 136).take 2 = natToLe 2 (e.kind % 65536) ∧
    deserialize (serialize e []) = .ok { e with kind := e.kind % 65536 } := by
  constructor
  · rw [natToLe_two_mod]
    exact serializeBytes_kind_slice e he
  · exact deserialize_serialize_mod e he

/-- Witness for C4 at kind 70000: the stored bytes and the decoded kind are
4464 = 70000 mod 65536. -/
theorem kind_truncated_witness :
    ((serialize { sampleEmptyEvent with kind := 70000 } []).drop 136).take 2
        = natToLe 2 4464 ∧
    deserialize (serialize { sampleEmptyEvent with kind := 70000 } [])
      = .ok { sampleEmptyEvent with kind := 4464 } := by
  have h := kind_truncated_mod_65536 { sampleEmptyEvent with kind := 70000 }
    (by decide) (by decide)
  exact ⟨h.1.trans (by decide), h.2.trans (by decide)⟩

/-- C5: the uppercase tag value `"DEADBEEF"` is stored as a literal run
(header byte 8: hex flag clear, length 8, followed by the original bytes)
and round-trips byte-for-byte with its casing preserved; the lowercase
`"deadbeef"` is stored hex-compressed (header byte `0x84`: hex flag set,
length 4 = half the characters, then the 4 decoded bytes) and round-trips,
and its encoded record is strictly smaller than the uppercase one's. -/
theorem hex_case_preservation :
    pack_value [68, 69, 65, 68, 66, 69, 69, 70]
        = [8, 68, 69, 65, 68, 66, 69, 69, 70] ∧
    pack_value [100, 101, 97, 100, 98, 101, 101, 102]
        = [132, 222, 173, 190, 239] ∧
    deserialize (serialize upperHexEvent []) = .ok upperHexEvent ∧
    deserialize (serialize lowerHexEvent []) = .ok lowerHexEvent ∧
    (serialize lowerHexEvent []).length < (serialize upperHexEvent []).length :=
  ⟨by decide, by decide, by decide, by decide, by decide⟩

/-- C6: every byte string failing the lowercase-hex criterion anywhere (odd
length, length below 8, or any byte outside `[0-9a-f]` — including when the
first eight bytes are valid lowercase hex) is stored as a literal run with
the hex flag clear, and a record carrying it both as a tag value and as the
content round-trips unchanged. -/
theorem non_hex_literal_roundtrip (s : List Nat) (hb : ∀ b ∈ s, b < 256)
    (hlen : s.length < 2 ^ 28)
    (hnot : ¬ (8 ≤ s.length ∧ s.length % 2 = 0
      ∧ ∀ b ∈ s, isLowerHexDigit b = true)) :
    pack_value s = write_len_flag_ptr s.length false ++ s ∧
    deserialize (serialize
        { id := List.replicate 32 0, pubkey := List.replicate 32 0,
          created_at := 0, kind := 0, tags := [[s]], content := s,
          sig := List.replicate 64 0 } [])
      = .ok { id := List.replicate 32 0, pubkey := List.replicate 32 0,
              created_at := 0, kind := 0, tags := [[s]], content := s,
              sig := List.replicate 64 0 } := by
  refine ⟨pack_value_literal s hnot, ?_⟩
  exact deserialize_serialize_mod _ (representable_single s hb hlen)

/-- Witness for C6 at `"deadbeefZZ"` (first eight bytes lowercase hex, then
two uppercase bytes, even length 10). -/
theorem non_hex_literal_witness :
    pack_value [100, 101, 97, 100, 98, 101, 101, 102, 90, 90]
        = [10, 100, 101, 97, 100, 98, 101, 101, 102, 90, 90] ∧
    deserialize (serialize
        { id := List.replicate 32 0, pubkey := List.replicate 32 0,
          created_at := 0, kind := 0,
          tags := [[[100, 101, 97, 100, 98, 101, 101, 102, 90, 90]]],
          content := [100, 101, 97, 100, 98, 101, 101, 102, 90, 90],
          sig := List.replicate 64 0 } [])
      = .ok { id := List.replicate 32 0, pubkey := List.replicate 32 0,
              created_at := 0, kind := 0,
              tags := [[[100, 101, 97, 100, 98, 101, 101, 102, 90, 90]]],
              content := [100, 101, 97, 100, 98, 101, 101, 102, 90, 90],
              sig := List.replicate 64 0 } := by
  have h := non_hex_literal_roundtrip
    [100, 101, 97, 100, 98, 101, 101, 102, 90, 90]
    (by decide) (by decide) (by decide)
  exact ⟨h.1.trans (by decide), h.2⟩

/-- C7: the serialized output begins with exactly the 138-byte fixed block,
id (32) ++ pubkey (32) ++ sig (64) ++ created_at (8 bytes, little-endian
two's complement) ++ kind (2 bytes, little-endian), with no padding, and
deserialization reads those same bytes back into the corresponding five
fields. -/
theorem fixed_block_layout (e : NostrEvent) (he : Representable e)
    (hk : e.kind < 65536) :
    (serialize e []).take 138
      = e.id ++ e.pubkey ++ e.sig ++ i64ToLe e.created_at ++ natToLe 2 e.kind ∧
    (deserialize (serialize e [])).map
        (fun r => (r.id, r.pubkey, r.sig, r.created_at, r.kind))
      = .ok (e.id, e.pubkey, e.sig, e.created_at, e.kind) := by
  constructor
  · exact serializeBytes_take_138 e he
  · rw [deserialize_serialize_mod e he, Nat.mod_eq_of_lt hk]
    rfl

/-- Witness for C7 at a concrete record. -/
theorem fixed_block_layout_witness :
    (serialize sampleUtf8Event []).take 138
      = sampleUtf8Event.id ++ sampleUtf8Event.pubkey ++ sampleUtf8Event.sig
        ++ i64ToLe sampleUtf8Event.created_at ++ natToLe 2 sampleUtf8Event.kind ∧
    (deserialize (serialize sampleUtf8Event [])).map
        (fun r => (r.id, r.pubkey, r.sig, r.created_at, r.kind))
      = .ok (sampleUtf8Event.id, sampleUtf8Event.pubkey, sampleUtf8Event.sig,
          sampleUtf8Event.created_at, sampleUtf8Event.kind) :=
  fixed_block_layout sampleUtf8Event (by decide) (by decide)

/-- C8: for every finite sequence of representable records (kind below
65536, each encoded record below 2^32 bytes and fewer than 2^32 records —
the `u32` wire widths), the batch encoding is a little-endian `u32` count
followed by, per record, a little-endian `u32` byte-length prefix and the
record's bytes, and batch deserialization returns exactly the original
records in their original order. -/
theorem batch_roundtrip (events : List NostrEvent)
    (hwf : ∀ e ∈ events, Representable e ∧ e.kind < 65536
      ∧ (serializeBytes e).length < 2 ^ 32)
    (hcnt : events.length < 2 ^ 32) :
    serialize_batch events
      = natToLe 4 events.length
        ++ events.flatMap
          (fun x => natToLe 4 (serializeBytes x).length ++ serializeBytes x) ∧
    deserialize_batch (serialize_batch events) = .ok events :=
  ⟨serialize_batch_eq events, deserialize_batch_serialize_batch events hwf hcnt⟩

/-- Witness for C8 at a two-record batch. -/
theorem batch_roundtrip_witness :
    deserialize_batch (serialize_batch [sampleUtf8Event, sampleEmptyEvent])
      = .ok [sampleUtf8Event, sampleEmptyEvent] :=
  (batch_roundtrip [sampleUtf8Event, sampleEmptyEvent] (by decide) (by decide)).2

/-- C9: `deserialize_into` uses the caller-supplied output record purely as
scratch capacity: for every input buffer and any two prior records the
outcomes are identical (same error, or same decoded record), and both equal
what `deserialize` returns on the same buffer. -/
theorem deserialize_into_scratch_independent (data : List Nat)
    (e1 e2 : NostrEvent) :
    deserialize_into data e1 = deserialize_into data e2 ∧
    deserialize_into data e1 = deserialize data := by
  have key : ∀ (p q : NostrEvent),
      deserialize_into data p = deserialize_into data q := by
    intro p q
    unfold deserialize_into
    simp only []
    split
    · rfl
    · split
      · rfl
      · rw [unpack_tags_into_indep _ p.tags q.tags]
  exact ⟨key e1 e2, key e1 zeroEvent⟩

/-- C10: `serialize` appends — the first `buf.length` bytes of the output
buffer are its prior contents unchanged, and the encoded record occupies
exactly the newly appended suffix (what a call on an empty buffer yields) —
and `serialize_batch`, which interleaves its `u32` length prefixes with
`serialize` calls into one shared buffer and then writes each length back
over its placeholder, therefore produces the clean concatenation of count,
prefixes and record bytes. -/
theorem serialize_appends (e : NostrEvent) (buf : List Nat) :
    (serialize e buf).take buf.length = buf ∧
    (serialize e buf).drop buf.length = serialize e [] ∧
    ∀ events : List NostrEvent,
      serialize_batch events
        = natToLe 4 events.length
          ++ events.flatMap
            (fun x => natToLe 4 (serializeBytes x).length ++ serializeBytes x) :=
  ⟨List.take_left buf _, List.drop_left buf _, fun events => serialize_batch_eq events⟩
